import Mathlib

/-!
Shallow embedding of `src/l/simulated_annealing.py` (simulated annealing with a
non-improvement stopping criterion) and proofs about it.

Modelling conventions:
* Python lists of elements become `List α`; list copies (`ranking[:]`) are the
  identity in a pure setting.
* Python floats (costs, temperatures, uniform draws of the engine) are modelled
  as real numbers; the coin draws of the relocation generator, which are only
  ever compared against `0.5`, are modelled as rationals so the generator stays
  executable.
* Machine randomness is an input: each random draw the code performs is a value
  handed to the embedded function (with its range contract stated as a
  hypothesis in the theorems), or an element of an explicit oracle list that is
  consumed in program order.  Running out of oracle entries, or an
  out-of-contract draw, yields `none`.
* A Python function that can raise returns `Option`/`Except`: `none`/`error`
  is an uncaught exception.
* The `better_solution_function` callback is observed through an event log
  carried in the run state: each invocation appends the argument pair
  `(cost, solution)` passed to the callback.
-/

/-- Python index normalisation: a negative index counts from the end of a list
of length `n`. -/
def pyNorm (n : ℕ) (i : ℤ) : ℤ := if i < 0 then i + n else i

/-- Python list read `l[i]` with full Python index semantics; `none` is an
`IndexError`. -/
def pyGet? {α : Type} (l : List α) (i : ℤ) : Option α :=
  let j := pyNorm l.length i
  if h : 0 ≤ j ∧ j.toNat < l.length then some (l.get ⟨j.toNat, h.2⟩) else none

/-- Python list write `l[i] = a` with full Python index semantics; `none` is an
`IndexError`. -/
def pySet? {α : Type} (l : List α) (i : ℤ) (a : α) : Option (List α) :=
  let j := pyNorm l.length i
  if 0 ≤ j ∧ j.toNat < l.length then some (l.set j.toNat a) else none

/-- Python simultaneous swap `l[i], l[j] = l[j], l[i]`: the right-hand tuple is
read from the original list, then the two writes happen left to right. -/
def pySwap? {α : Type} (l : List α) (i j : ℤ) : Option (List α) := do
  let vi ← pyGet? l j
  let vj ← pyGet? l i
  let l1 ← pySet? l i vi
  pySet? l1 j vj

/-- Python `l.insert(i, x)` for a non-negative index `i`: inserts before
position `i`, clamping `i` to the list length. -/
def pyInsert {α : Type} (l : List α) (i : ℕ) (x : α) : List α :=
  l.insertIdx (min i l.length) x

/-- Embedding of the inner `neighbourhood_function` of
`get_neighbourhood_function` (adjacent swap, source lines 5-12).  `draw` is the
result of `rng.randrange(len(ranking))`; for an empty ranking that call raises
`ValueError`, modelled as `none`. -/
def neighbourhood_function {α : Type} (ranking : List α) (draw : ℕ) :
    Option (List α × ℤ × ℤ) :=
  if ranking.length = 0 then none
  else
    let old_position : ℤ :=
      if (draw : ℤ) = (ranking.length : ℤ) - 1 then (draw : ℤ) - 1 else (draw : ℤ)
    let new_position : ℤ := old_position + 1
    (pySwap? ranking old_position new_position).map fun l => (l, old_position, new_position)

/-- One random draw consumed by the adjacency-avoidance loop of
`neighbourhood_function2`: either a uniform real in `[0,1)` from
`rng.random()` (as a rational, it is only compared with `0.5`) or the index
drawn inside `rng.choice`. -/
inductive Draw : Type where
  | coin (u : ℚ)
  | pick (i : ℕ)

/-- Python `abs(old_position - new_position) == 1` on integers. -/
def areAdjacent (old_position new_position : ℕ) : Bool :=
  ((old_position : ℤ) - (new_position : ℤ)).natAbs = 1

/-- The `while are_adjacent and rng.random() < 0.5` loop of
`neighbourhood_function2` (source lines 22-24).  The guard short-circuits: no
coin is drawn once `are_adjacent` is false.  Each executed body draws the coin,
and when the coin is below `0.5` re-rolls `new_position` via
`rng.choice(available_positions)` (the drawn index is the oracle entry) and
recomputes `are_adjacent`.  Returns the final `new_position`; `none` means the
oracle ran out or an oracle entry was out of contract. -/
def adjacencyLoop (old_position : ℕ) (available_positions : List ℕ) :
    List Draw → ℕ → Option ℕ
  | ds, np =>
    if areAdjacent old_position np then
      match ds with
      | Draw.coin u :: rest =>
        if u < 0.5 then
          match rest with
          | Draw.pick i :: rest2 =>
            match available_positions[i]? with
            | some np2 => adjacencyLoop old_position available_positions rest2 np2
            | none => none
          | _ => none
        else some np
      | _ => none
    else some np

/-- The comprehension `[x for x in range(len(ranking)) if x != old_position]`
of `neighbourhood_function2` (source line 20). -/
def available_positions (n old_position : ℕ) : List ℕ :=
  (List.range n).filter fun x => x ≠ old_position

/-- Embedding of the inner `neighbourhood_function2` of
`get_neighbourhood_function` (biased relocation, source lines 14-28).
`old_position` and `new_position0` are the two values of
`rng.sample(range(len(ranking)), 2)`, which raises `ValueError` (here `none`)
when the ranking has fewer than 2 elements; `ds` is the oracle for the
adjacency-avoidance loop.  The final statement
`new_ranking.insert(new_position, new_ranking.pop(old_position))` pops the
element at `old_position` and reinserts it at `new_position`.
`available_positions` is computed in the source only when the sampled pair is
adjacent (it is `None` otherwise) but is read only inside the loop, which runs
only while the pair is adjacent, so computing it unconditionally is
observationally identical. -/
def neighbourhood_function2 {α : Type} (ranking : List α)
    (old_position new_position0 : ℕ) (ds : List Draw) :
    Option (List α × ℕ × ℕ) :=
  if ranking.length < 2 then none
  else
    match adjacencyLoop old_position
        (available_positions ranking.length old_position) ds new_position0 with
    | none => none
    | some new_position =>
      match ranking[old_position]? with
      | none => none
      | some x =>
        some (pyInsert (ranking.eraseIdx old_position) new_position x,
              old_position, new_position)

/-- Embedding of `get_multiplicative_cooling_schedule_function` (source lines
32-44): validates the multiplier and returns the pure function
`f(T) = a * T`; the raised `Exception` is modelled as `Except.error` with the
message text. -/
noncomputable def get_multiplicative_cooling_schedule_function
    (cooling_ratio_multiplier : ℝ) : Except String (ℝ → ℝ) :=
  if cooling_ratio_multiplier < 0 ∨ cooling_ratio_multiplier > 1 then
    Except.error "The value for the cooling ration multiplier a must be 0 <= a <= 1"
  else
    Except.ok fun temperature => cooling_ratio_multiplier * temperature

/-- Embedding of the constructor parameters of
`SimulatedAnnealingWithNonImproveStoppingCriterion` (source lines 70-88).  The
constructor only stores its arguments, so the structure literal is the
embedding of `__init__`.  `ρ` is the state type of the random number
generator, `β` the type of the extra components of the neighbourhood
function's result tuple (the engine destructures the tuple and ignores them).
`rand` is `rng.random`, returning a uniform real in `[0,1)` and the advanced
generator state. -/
structure SimulatedAnnealingWithNonImproveStoppingCriterion
    (α ρ β : Type) where
  rng : ρ
  rand : ρ → ℝ × ρ
  neighbourhood_function : List α → ρ → (List α × β) × ρ
  cost_function : List α → ℝ
  initial_temperature : ℝ
  temperature_length : ℕ
  cooling_schedule_function : ℝ → ℝ
  num_non_improve : ℕ

/-- The mutable local state of one call to `run` (source lines 91-103), plus
the event log of the `better_solution_function` callback. -/
structure SAState (α ρ : Type) where
  rng : ρ
  temperature : ℝ
  current_solution : List α
  current_solution_cost : ℝ
  best_solution : List α
  best_solution_cost : ℝ
  iterations_since_last_improvement : ℕ
  number_of_uphill_moves : ℕ
  callback_log : List (ℝ × List α)

variable {α ρ β : Type}

/-- One iteration of the inner `for _ in range(self.temperature_length)` loop
of `run` (source lines 106-144), excluding the early-break test that follows
it: generate a neighbour, compare costs, and either accept (`delta_cost >= 0`,
invoking the callback and updating the best on a strict improvement) or draw
`u = rng.random()` and accept with probability `exp(delta_cost / T)`. -/
noncomputable def innerStep
    (E : SimulatedAnnealingWithNonImproveStoppingCriterion α ρ β)
    (s : SAState α ρ) : SAState α ρ :=
  let n := E.neighbourhood_function s.current_solution s.rng
  let neighbour_solution := n.1.1
  let r1 := n.2
  let neighbour_solution_cost := E.cost_function neighbour_solution
  let delta_cost := neighbour_solution_cost - s.current_solution_cost
  if 0 ≤ delta_cost then
    if neighbour_solution_cost > s.best_solution_cost then
      { s with
        rng := r1
        current_solution := neighbour_solution
        current_solution_cost := neighbour_solution_cost
        callback_log :=
          s.callback_log ++ [(neighbour_solution_cost, neighbour_solution)]
        best_solution := neighbour_solution
        best_solution_cost := neighbour_solution_cost
        iterations_since_last_improvement := 0 }
    else
      { s with
        rng := r1
        current_solution := neighbour_solution
        current_solution_cost := neighbour_solution_cost
        iterations_since_last_improvement :=
          s.iterations_since_last_improvement + 1 }
  else
    let u := (E.rand r1).1
    let r2 := (E.rand r1).2
    if u < Real.exp (delta_cost / s.temperature) then
      { s with
        rng := r2
        current_solution := neighbour_solution
        current_solution_cost := neighbour_solution_cost
        number_of_uphill_moves := s.number_of_uphill_moves + 1
        iterations_since_last_improvement :=
          s.iterations_since_last_improvement + 1 }
    else
      { s with
        rng := r2
        iterations_since_last_improvement :=
          s.iterations_since_last_improvement + 1 }

/-- The inner `for _ in range(self.temperature_length)` loop of `run` (source
lines 106-144): after each iteration, break as soon as
`iterations_since_last_improvement >= num_non_improve`. -/
noncomputable def innerLoop
    (E : SimulatedAnnealingWithNonImproveStoppingCriterion α ρ β) :
    ℕ → SAState α ρ → SAState α ρ
  | 0, s => s
  | l + 1, s =>
    let s' := innerStep E s
    if s'.iterations_since_last_improvement ≥ E.num_non_improve then s'
    else innerLoop E l s'

/-- The outer `while iterations_since_last_improvement < self.num_non_improve`
loop of `run` (source lines 104-148): run the inner loop at the current
temperature, then apply the cooling schedule once.  `fuel` bounds the number
of outer iterations; `none` means the bound was hit before the loop exited
(the source loop is not guaranteed to terminate). -/
noncomputable def outerLoop
    (E : SimulatedAnnealingWithNonImproveStoppingCriterion α ρ β) :
    ℕ → SAState α ρ → Option (SAState α ρ)
  | 0, s =>
    if s.iterations_since_last_improvement < E.num_non_improve then none
    else some s
  | fuel + 1, s =>
    if s.iterations_since_last_improvement < E.num_non_improve then
      let s' := innerLoop E E.temperature_length s
      outerLoop E fuel
        { s' with temperature := E.cooling_schedule_function s'.temperature }
    else some s

/-- Embedding of `run` (source lines 90-151): initialise the state from the
initial solution, iterate the outer loop, and return
`(best_solution, best_solution_cost, number_of_uphill_moves)`. -/
noncomputable def run
    (E : SimulatedAnnealingWithNonImproveStoppingCriterion α ρ β)
    (initial_solution : List α) (fuel : ℕ) : Option (List α × ℝ × ℕ) :=
  let s0 : SAState α ρ :=
    { rng := E.rng
      temperature := E.initial_temperature
      current_solution := initial_solution
      current_solution_cost := E.cost_function initial_solution
      best_solution := initial_solution
      best_solution_cost := E.cost_function initial_solution
      iterations_since_last_improvement := 0
      number_of_uphill_moves := 0
      callback_log := [] }
  (outerLoop E fuel s0).map fun s =>
    (s.best_solution, s.best_solution_cost, s.number_of_uphill_moves)

/-! ### Shared helper lemmas and test fixtures -/

/-- The run state with the callback log erased; two states agree through
`eraseLog` exactly when all engine-visible fields agree. -/
def eraseLog (s : SAState α ρ) : SAState α ρ := { s with callback_log := [] }

/-- Inserting at an index within bounds yields a permutation of consing. -/
theorem insertIdx_perm_cons (x : α) :
    ∀ (n : ℕ) (l : List α), n ≤ l.length → (l.insertIdx n x).Perm (x :: l) := by
  intro n
  induction n with
  | zero => intro l _; simp
  | succ n ih =>
    intro l h
    match l with
    | a :: t =>
      simp only [List.insertIdx_succ_cons]
      exact (List.Perm.cons a (ih t (by simpa using h))).trans (List.Perm.swap x a t)

/-- A list is a permutation of its element at `i` consed onto the list with
index `i` erased. -/
theorem perm_getElem_cons_eraseIdx :
    ∀ (l : List α) (i : ℕ) (h : i < l.length),
      l.Perm (l.get ⟨i, h⟩ :: l.eraseIdx i) := by
  intro l i
  induction i generalizing l with
  | zero =>
    intro h
    match l with
    | a :: t => simp
  | succ i ih =>
    intro h
    match l with
    | a :: t =>
      simp only [List.eraseIdx_cons_succ, List.get_cons_succ]
      exact ((ih t (by simpa using h)).cons a).trans (List.Perm.swap _ a _)

/-- Swapping two adjacent entries by two `set`s yields a permutation. -/
theorem set_set_adjacent_perm :
    ∀ (l : List α) (i : ℕ) (h : i + 1 < l.length),
      ((l.set i (l.get ⟨i + 1, h⟩)).set (i + 1)
        (l.get ⟨i, Nat.lt_of_succ_lt h⟩)).Perm l := by
  intro l i
  induction i generalizing l with
  | zero =>
    intro h
    match l with
    | a :: b :: t => exact List.Perm.swap a b t
  | succ i ih =>
    intro h
    match l with
    | a :: t =>
      simp only [List.set_cons_succ, List.get_cons_succ]
      exact (ih t (by simpa using h)).cons a

/-- Concrete engine used to evaluate the embedding: every parameter violates
the spec's constraints (`initial_temperature = -1 ≤ 0`,
`temperature_length = 0 < 1`, `num_non_improve = 0 < 1`), the neighbourhood
function returns its input, and the cost function is constantly `0`. -/
noncomputable def badParamsEngine :
    SimulatedAnnealingWithNonImproveStoppingCriterion ℤ Unit Unit where
  rng := ()
  rand := fun r => (0, r)
  neighbourhood_function := fun l r => ((l, ()), r)
  cost_function := fun _ => 0
  initial_temperature := -1
  temperature_length := 0
  cooling_schedule_function := fun T => T
  num_non_improve := 0

/-- Concrete engine used to evaluate the engine theorems: the neighbourhood
function always proposes `[1, 0]`, and the cost of a ranking is its head. -/
noncomputable def testEngine :
    SimulatedAnnealingWithNonImproveStoppingCriterion ℤ Unit Unit where
  rng := ()
  rand := fun r => (0, r)
  neighbourhood_function := fun _ r => (([1, 0], ()), r)
  cost_function := fun l => ((l.headI : ℤ) : ℝ)
  initial_temperature := 1
  temperature_length := 1
  cooling_schedule_function := fun T => T
  num_non_improve := 1

/-- Concrete run state used to evaluate the engine theorems. -/
noncomputable def testState : SAState ℤ Unit where
  rng := ()
  temperature := 1
  current_solution := [0, 1]
  current_solution_cost := 0
  best_solution := [0, 1]
  best_solution_cost := 0
  iterations_since_last_improvement := 0
  number_of_uphill_moves := 0
  callback_log := []

/-! ### Claim theorems -/

/-- C8: `get_multiplicative_cooling_schedule_function` fails if and only if
its multiplier is outside `[0, 1]`; for a multiplier in `[0, 1]` it returns
the pure function `f(T) = a * T`, so the temperature after `i` cooling steps
starting from `T0` equals `T0 * a ^ i` exactly. -/
theorem cooling_schedule_factory_spec (a : ℝ) :
    ((∃ msg, get_multiplicative_cooling_schedule_function a = Except.error msg) ↔
      (a < 0 ∨ 1 < a)) ∧
    (0 ≤ a → a ≤ 1 →
      get_multiplicative_cooling_schedule_function a =
        Except.ok (fun temperature => a * temperature) ∧
      ∀ (T0 : ℝ) (i : ℕ), (fun temperature => a * temperature)^[i] T0 = T0 * a ^ i) := by
  constructor
  · unfold get_multiplicative_cooling_schedule_function
    split_ifs with h
    · simpa using h
    · simpa using h
  · intro h0 h1
    constructor
    · unfold get_multiplicative_cooling_schedule_function
      rw [if_neg]
      push_neg
      exact ⟨h0, h1⟩
    · intro T0 i
      induction i with
      | zero => simp
      | succ n ih => rw [Function.iterate_succ_apply', ih]; ring

/-- Witness for C8 at the concrete multiplier `1/2`, temperature `3` and two
cooling steps. -/
theorem cooling_schedule_factory_spec_witness :
    get_multiplicative_cooling_schedule_function (1 / 2 : ℝ) =
      Except.ok (fun temperature => (1 / 2 : ℝ) * temperature) ∧
    (fun temperature => (1 / 2 : ℝ) * temperature)^[2] 3 = 3 * (1 / 2 : ℝ) ^ 2 := by
  have h := (cooling_schedule_factory_spec (1 / 2 : ℝ)).2 (by norm_num) (by norm_num)
  exact ⟨h.1, h.2 3 2⟩

/-- C10: on a single-element ranking the adjacent-swap generator raises no
error: the only possible draw is `0`, which equals the last index and is
decremented to `-1`; the Python swap of positions `-1` and `0` exchanges the
sole element with itself, and the generator returns the unchanged ranking with
the position pair `(-1, 0)`. -/
theorem adjacent_swap_singleton_no_error {α : Type} (x : α) :
    neighbourhood_function [x] 0 = some ([x], -1, 0) ∧
    pySwap? [x] (-1 : ℤ) 0 = some [x] := by
  constructor
  · rfl
  · rfl

/-- Counterexample to C4 as stated: on the single-element ranking `[5]` the
adjacent-swap generator does not raise; it returns a value. -/
theorem adjacent_swap_singleton_returns :
    neighbourhood_function [(5 : ℤ)] 0 = some ([5], -1, 0) := by
  rfl

/-- C4 (amended): for rankings with fewer than 2 elements the biased
relocation generator always fails (its 2-element sample is impossible), and
the adjacent-swap generator fails on the empty ranking (its `randrange(0)`
raises); but on a single-element ranking the adjacent-swap generator succeeds,
returning the ranking unchanged with positions `(-1, 0)`. -/
theorem generators_small_ranking {α : Type} (r : List α) (old np0 : ℕ)
    (ds : List Draw) (h : r.length < 2) :
    neighbourhood_function2 r old np0 ds = none ∧
    (∀ d : ℕ, neighbourhood_function ([] : List α) d = none) ∧
    (∀ x : α, neighbourhood_function [x] 0 = some ([x], -1, 0)) := by
  refine ⟨?_, ?_, ?_⟩
  · unfold neighbourhood_function2
    rw [if_pos h]
  · intro d
    rfl
  · intro x
    rfl

/-- Witness for C4 (amended) on the concrete one-element ranking `[7]`. -/
theorem generators_small_ranking_witness :
    neighbourhood_function2 [(7 : ℤ)] 0 1 [] = none ∧
    (∀ d : ℕ, neighbourhood_function ([] : List ℤ) d = none) ∧
    (∀ x : ℤ, neighbourhood_function [x] 0 = some ([x], -1, 0)) :=
  generators_small_ranking [(7 : ℤ)] 0 1 [] (by decide)

/-- Counterexample to C3 as stated: an engine whose construction parameters
all violate the spec's constraints (`initial_temperature = -1`,
`temperature_length = 0`, `num_non_improve = 0`) is constructed without any
error, and `run` on it returns normally instead of failing. -/
theorem bad_params_run_returns :
    run badParamsEngine [1, 2] 1 = some ([1, 2], 0, 0) := by
  simp [run, outerLoop, badParamsEngine]

/-- C3 (amended): the engine constructor performs no validation at all (it
only stores its arguments, so construction never fails); in particular with
`num_non_improve = 0 < 1` the `run` loop body is never entered and `run`
returns the initial solution, its cost and a zero uphill count with no error.
Only the cooling-schedule factory validates its parameter. -/
theorem no_constructor_validation {α ρ β : Type}
    (E : SimulatedAnnealingWithNonImproveStoppingCriterion α ρ β)
    (initial_solution : List α) (fuel : ℕ) (h : E.num_non_improve = 0) :
    run E initial_solution (fuel + 1) =
      some (initial_solution, E.cost_function initial_solution, 0) := by
  simp [run, outerLoop, h]

/-- Witness for C3 (amended) on a concrete engine with `num_non_improve = 0`. -/
theorem no_constructor_validation_witness :
    run badParamsEngine [3] (0 + 1) = some ([3], 0, 0) := by
  have h := no_constructor_validation badParamsEngine [3] 0 rfl
  simpa [badParamsEngine] using h

/-- The inner-loop body never touches the temperature. -/
theorem innerStep_temperature
    (E : SimulatedAnnealingWithNonImproveStoppingCriterion α ρ β)
    (s : SAState α ρ) : (innerStep E s).temperature = s.temperature := by
  simp only [innerStep]
  split_ifs <;> rfl

/-- The best cost never decreases across one inner-loop body. -/
theorem innerStep_best_le
    (E : SimulatedAnnealingWithNonImproveStoppingCriterion α ρ β)
    (s : SAState α ρ) :
    s.best_solution_cost ≤ (innerStep E s).best_solution_cost := by
  simp only [innerStep]
  split_ifs with h1 h2 h3
  · exact le_of_lt h2
  · exact le_refl _
  · exact le_refl _
  · exact le_refl _

/-- One inner-loop body either keeps the best cost or strictly increases it. -/
theorem innerStep_best_eq_or_lt
    (E : SimulatedAnnealingWithNonImproveStoppingCriterion α ρ β)
    (s : SAState α ρ) :
    (innerStep E s).best_solution_cost = s.best_solution_cost ∨
      s.best_solution_cost < (innerStep E s).best_solution_cost := by
  simp only [innerStep]
  split_ifs with h1 h2 h3
  · exact Or.inr h2
  · exact Or.inl rfl
  · exact Or.inl rfl
  · exact Or.inl rfl

/-- The best cost never decreases across the inner loop. -/
theorem innerLoop_best_le
    (E : SimulatedAnnealingWithNonImproveStoppingCriterion α ρ β) :
    ∀ (l : ℕ) (s : SAState α ρ),
      s.best_solution_cost ≤ (innerLoop E l s).best_solution_cost := by
  intro l
  induction l with
  | zero => intro s; exact le_refl _
  | succ l ih =>
    intro s
    simp only [innerLoop]
    split_ifs with h
    · exact innerStep_best_le E s
    · exact le_trans (innerStep_best_le E s) (ih (innerStep E s))

/-- The inner loop never touches the temperature. -/
theorem innerLoop_temperature
    (E : SimulatedAnnealingWithNonImproveStoppingCriterion α ρ β) :
    ∀ (l : ℕ) (s : SAState α ρ), (innerLoop E l s).temperature = s.temperature := by
  intro l
  induction l with
  | zero => intro s; rfl
  | succ l ih =>
    intro s
    simp only [innerLoop]
    split_ifs with h
    · exact innerStep_temperature E s
    · exact (ih (innerStep E s)).trans (innerStep_temperature E s)

/-- The best cost never decreases across the outer loop. -/
theorem outerLoop_best_le
    (E : SimulatedAnnealingWithNonImproveStoppingCriterion α ρ β) :
    ∀ (fuel : ℕ) (s s' : SAState α ρ), outerLoop E fuel s = some s' →
      s.best_solution_cost ≤ s'.best_solution_cost := by
  intro fuel
  induction fuel with
  | zero =>
    intro s s' h
    simp only [outerLoop] at h
    split_ifs at h
    cases h
    exact le_refl _
  | succ fuel ih =>
    intro s s' h
    simp only [outerLoop] at h
    split_ifs at h with hg
    · have h2 := ih _ _ h
      exact le_trans (innerLoop_best_le E E.temperature_length s) h2
    · cases h
      exact le_refl _

/-- Invariant relating the run state to the pure cost function: current and
best costs are maintained in lockstep with their solutions, and the best cost
dominates every cost ever passed to the callback. -/
def GoodState (E : SimulatedAnnealingWithNonImproveStoppingCriterion α ρ β)
    (s : SAState α ρ) : Prop :=
  E.cost_function s.current_solution = s.current_solution_cost ∧
  E.cost_function s.best_solution = s.best_solution_cost ∧
  ∀ p ∈ s.callback_log, p.1 ≤ s.best_solution_cost

/-- One inner-loop body preserves the lockstep-and-log invariant. -/
theorem innerStep_good
    (E : SimulatedAnnealingWithNonImproveStoppingCriterion α ρ β)
    (s : SAState α ρ) (h : GoodState E s) : GoodState E (innerStep E s) := by
  obtain ⟨hc, hb, hlog⟩ := h
  have hle := innerStep_best_le E s
  simp only [innerStep] at hle ⊢
  split_ifs with h1 h2 h3
  · refine ⟨rfl, rfl, ?_⟩
    intro p hp
    simp only [List.mem_append, List.mem_singleton] at hp
    rcases hp with hp | hp
    · exact le_of_lt (lt_of_le_of_lt (hlog p hp) h2)
    · subst hp
      exact le_refl _
  · exact ⟨rfl, hb, hlog⟩
  · exact ⟨rfl, hb, hlog⟩
  · exact ⟨hc, hb, hlog⟩

/-- The inner loop preserves the lockstep-and-log invariant. -/
theorem innerLoop_good
    (E : SimulatedAnnealingWithNonImproveStoppingCriterion α ρ β) :
    ∀ (l : ℕ) (s : SAState α ρ), GoodState E s → GoodState E (innerLoop E l s) := by
  intro l
  induction l with
  | zero => intro s h; exact h
  | succ l ih =>
    intro s h
    simp only [innerLoop]
    split_ifs with hg
    · exact innerStep_good E s h
    · exact ih (innerStep E s) (innerStep_good E s h)

/-- The outer loop preserves the lockstep-and-log invariant (the cooling
update between inner loops only changes the temperature). -/
theorem outerLoop_good
    (E : SimulatedAnnealingWithNonImproveStoppingCriterion α ρ β) :
    ∀ (fuel : ℕ) (s s' : SAState α ρ), outerLoop E fuel s = some s' →
      GoodState E s → GoodState E s' := by
  intro fuel
  induction fuel with
  | zero =>
    intro s s' h hg
    simp only [outerLoop] at h
    split_ifs at h
    cases h
    exact hg
  | succ fuel ih =>
    intro s s' h hg
    simp only [outerLoop] at h
    split_ifs at h with hguard
    · refine ih _ _ h ?_
      have h2 := innerLoop_good E E.temperature_length s hg
      exact h2
    · cases h
      exact hg

/-- C5: throughout every execution of `run`, `best_solution_cost` is
non-decreasing (across one inner iteration, across the inner loop, and across
the whole outer loop); it changes only by being assigned a strictly greater
value; the lockstep-and-log invariant (`current_solution_cost` equals the
cost of `current_solution`, the best likewise, and the best cost dominates
every cost that triggered a found-better event) is preserved; and a
successful `run` returns a best cost that is at least the initial cost and
equal to the cost of the returned best solution. -/
theorem best_cost_monotone_and_lockstep
    (E : SimulatedAnnealingWithNonImproveStoppingCriterion α ρ β)
    (s : SAState α ρ) (l fuel : ℕ) (initial_solution : List α) :
    (s.best_solution_cost ≤ (innerStep E s).best_solution_cost) ∧
    ((innerStep E s).best_solution_cost ≠ s.best_solution_cost →
      s.best_solution_cost < (innerStep E s).best_solution_cost) ∧
    (GoodState E s → GoodState E (innerStep E s)) ∧
    (s.best_solution_cost ≤ (innerLoop E l s).best_solution_cost) ∧
    (∀ s', outerLoop E fuel s = some s' →
      s.best_solution_cost ≤ s'.best_solution_cost) ∧
    (∀ b c u, run E initial_solution fuel = some (b, c, u) →
      E.cost_function initial_solution ≤ c ∧ E.cost_function b = c) := by
  refine ⟨innerStep_best_le E s, ?_, innerStep_good E s,
    innerLoop_best_le E l s, fun s' h => outerLoop_best_le E fuel s s' h, ?_⟩
  · intro hne
    rcases innerStep_best_eq_or_lt E s with h | h
    · exact absurd h hne
    · exact h
  · intro b c u h
    simp only [run, Option.map_eq_some'] at h
    obtain ⟨s', hs', heq⟩ := h
    have h1 := outerLoop_best_le E fuel _ s' hs'
    have h2 := outerLoop_good E fuel _ s' hs' ⟨rfl, rfl, by simp⟩
    obtain ⟨-, hb, -⟩ := h2
    cases heq
    exact ⟨h1, hb⟩

/-- Witness for C5 on a concrete immediately-terminating run of an engine
with `num_non_improve = 0`. -/
theorem best_cost_monotone_and_lockstep_witness :
    badParamsEngine.cost_function [3] ≤ 0 ∧ badParamsEngine.cost_function [3] = 0 := by
  have h := (best_cost_monotone_and_lockstep badParamsEngine testState 0 1 [3]).2.2.2.2.2
  exact h [3] 0 0 (by simp [run, outerLoop, badParamsEngine])

/-- C1: in every inner-loop iteration, a non-negative cost delta (including
zero) is accepted deterministically through the accept branch without
consuming a random draw (the post-step generator state is exactly the state
left by the neighbourhood call, and the step does not depend on the random
source at all); a negative delta consumes exactly one draw `u` and accepts
the neighbour if and only if `u < exp(delta / T)`, incrementing the uphill
counter exactly when such a worsening move is accepted. -/
theorem acceptance_rule
    (E : SimulatedAnnealingWithNonImproveStoppingCriterion α ρ β)
    (s : SAState α ρ) (nbSol : List α) (rest : β) (r1 : ρ)
    (hnb : E.neighbourhood_function s.current_solution s.rng = ((nbSol, rest), r1)) :
    (0 ≤ E.cost_function nbSol - s.current_solution_cost →
      (innerStep E s).current_solution = nbSol ∧
      (innerStep E s).current_solution_cost = E.cost_function nbSol ∧
      (innerStep E s).rng = r1 ∧
      (innerStep E s).number_of_uphill_moves = s.number_of_uphill_moves ∧
      ∀ rand' : ρ → ℝ × ρ,
        innerStep { E with rand := rand' } s = innerStep E s) ∧
    (E.cost_function nbSol - s.current_solution_cost < 0 →
      (innerStep E s).rng = (E.rand r1).2 ∧
      ((E.rand r1).1 <
          Real.exp ((E.cost_function nbSol - s.current_solution_cost) / s.temperature) →
        (innerStep E s).current_solution = nbSol ∧
        (innerStep E s).current_solution_cost = E.cost_function nbSol ∧
        (innerStep E s).number_of_uphill_moves = s.number_of_uphill_moves + 1) ∧
      (Real.exp ((E.cost_function nbSol - s.current_solution_cost) / s.temperature) ≤
          (E.rand r1).1 →
        (innerStep E s).current_solution = s.current_solution ∧
        (innerStep E s).current_solution_cost = s.current_solution_cost ∧
        (innerStep E s).number_of_uphill_moves = s.number_of_uphill_moves)) := by
  constructor
  · intro hd
    have hstep : ∀ E' : SimulatedAnnealingWithNonImproveStoppingCriterion α ρ β,
        E'.neighbourhood_function = E.neighbourhood_function →
        E'.cost_function = E.cost_function →
        innerStep E' s =
          if E.cost_function nbSol > s.best_solution_cost then
            { s with
              rng := r1
              current_solution := nbSol
              current_solution_cost := E.cost_function nbSol
              callback_log :=
                s.callback_log ++ [(E.cost_function nbSol, nbSol)]
              best_solution := nbSol
              best_solution_cost := E.cost_function nbSol
              iterations_since_last_improvement := 0 }
          else
            { s with
              rng := r1
              current_solution := nbSol
              current_solution_cost := E.cost_function nbSol
              iterations_since_last_improvement :=
                s.iterations_since_last_improvement + 1 } := by
      intro E' hnf hcf
      simp only [innerStep, hnf, hcf, hnb, if_pos hd]
    have h1 := hstep E rfl rfl
    rw [h1]
    split_ifs with hbetter
    · exact ⟨rfl, rfl, rfl, rfl, fun rand' =>
        (hstep { E with rand := rand' } rfl rfl).trans (if_pos hbetter)⟩
    · exact ⟨rfl, rfl, rfl, rfl, fun rand' =>
        (hstep { E with rand := rand' } rfl rfl).trans (if_neg hbetter)⟩
  · intro hd
    have hstep : innerStep E s =
        if (E.rand r1).1 <
            Real.exp ((E.cost_function nbSol - s.current_solution_cost) / s.temperature) then
          { s with
            rng := (E.rand r1).2
            current_solution := nbSol
            current_solution_cost := E.cost_function nbSol
            number_of_uphill_moves := s.number_of_uphill_moves + 1
            iterations_since_last_improvement :=
              s.iterations_since_last_improvement + 1 }
        else
          { s with
            rng := (E.rand r1).2
            iterations_since_last_improvement :=
              s.iterations_since_last_improvement + 1 } := by
      simp only [innerStep, hnb, if_neg (not_le.mpr hd)]
    rw [hstep]
    split_ifs with hu
    · exact ⟨rfl, fun _ => ⟨rfl, rfl, rfl⟩, fun h => absurd hu (not_lt.mpr h)⟩
    · exact ⟨rfl, fun h => absurd h hu, fun _ => ⟨rfl, rfl, rfl⟩⟩

/-- Witness for C1 on a concrete improving step: the neighbour `[1, 0]` has
cost `1`, the current cost is `0`, so the delta is non-negative and the step
accepts it without consuming a draw. -/
theorem acceptance_rule_witness :
    (innerStep testEngine testState).current_solution = [1, 0] ∧
    (innerStep testEngine testState).current_solution_cost =
      testEngine.cost_function [1, 0] ∧
    (innerStep testEngine testState).rng = () ∧
    (innerStep testEngine testState).number_of_uphill_moves =
      testState.number_of_uphill_moves ∧
    ∀ rand' : Unit → ℝ × Unit,
      innerStep { testEngine with rand := rand' } testState =
        innerStep testEngine testState := by
  have h := (acceptance_rule testEngine testState [1, 0] () () rfl).1
  exact h (by norm_num [testEngine, testState])

/-- Concrete run state whose non-improvement counter has already reached the
stopping threshold of `testEngine`. -/
noncomputable def testStateDone : SAState ℤ Unit :=
  { testState with iterations_since_last_improvement := 1 }

/-- C2: with `num_non_improve = K ≥ 1`, the outer loop returns as soon as the
non-improvement counter has reached `K`; the inner loop breaks right after
the iteration in which the counter reaches `K`; the counter is reset to `0`
exactly when an accepted solution is strictly better than the best, and is
incremented by `1` in every other iteration (zero-delta accepts and every
worsening-branch iteration, accepted or not); the inner loop never changes
the temperature, and each outer-loop round applies the cooling schedule
exactly once, after the (possibly early-terminated) inner loop. -/
theorem stopping_criterion_and_cooling
    (E : SimulatedAnnealingWithNonImproveStoppingCriterion α ρ β)
    (s : SAState α ρ) (fuel l : ℕ) (nbSol : List α) (rest : β) (r1 : ρ)
    (hnb : E.neighbourhood_function s.current_solution s.rng = ((nbSol, rest), r1))
    (hK : 1 ≤ E.num_non_improve) :
    (E.num_non_improve ≤ s.iterations_since_last_improvement →
      outerLoop E (fuel + 1) s = some s) ∧
    (E.num_non_improve ≤ (innerStep E s).iterations_since_last_improvement →
      innerLoop E (l + 1) s = innerStep E s) ∧
    ((0 ≤ E.cost_function nbSol - s.current_solution_cost ∧
        s.best_solution_cost < E.cost_function nbSol) →
      (innerStep E s).iterations_since_last_improvement = 0) ∧
    (¬(0 ≤ E.cost_function nbSol - s.current_solution_cost ∧
        s.best_solution_cost < E.cost_function nbSol) →
      (innerStep E s).iterations_since_last_improvement =
        s.iterations_since_last_improvement + 1) ∧
    ((innerLoop E l s).temperature = s.temperature) ∧
    (s.iterations_since_last_improvement < E.num_non_improve →
      outerLoop E (fuel + 1) s =
        outerLoop E fuel
          { innerLoop E E.temperature_length s with
            temperature :=
              E.cooling_schedule_function
                (innerLoop E E.temperature_length s).temperature }) := by
  refine ⟨?_, ?_, ?_, ?_, innerLoop_temperature E l s, ?_⟩
  · intro h
    simp only [outerLoop]
    rw [if_neg (not_lt.mpr h)]
  · intro h
    simp only [innerLoop]
    rw [if_pos h]
  · intro h
    simp only [innerStep, hnb]
    rw [if_pos h.1, if_pos h.2]
  · intro h
    simp only [innerStep, hnb]
    by_cases hd : 0 ≤ E.cost_function nbSol - s.current_solution_cost
    · have hb : ¬ E.cost_function nbSol > s.best_solution_cost := fun hb => h ⟨hd, hb⟩
      rw [if_pos hd, if_neg hb]
    · rw [if_neg hd]
      split_ifs <;> rfl
  · intro h
    simp only [outerLoop]
    rw [if_pos h]

/-- Witness for C2 on concrete states of `testEngine` (`K = 1`): the outer
loop returns at once from a state whose counter is `1`, and the counter is
reset to `0` by the concrete improving step from `testState`. -/
theorem stopping_criterion_and_cooling_witness :
    outerLoop testEngine (0 + 1) testStateDone = some testStateDone ∧
    (innerStep testEngine testState).iterations_since_last_improvement = 0 := by
  have h1 := stopping_criterion_and_cooling testEngine testStateDone 0 0 [1, 0] () () rfl
    (by norm_num [testEngine])
  have h2 := stopping_criterion_and_cooling testEngine testState 0 0 [1, 0] () () rfl
    (by norm_num [testEngine])
  refine ⟨h1.1 (by norm_num [testEngine, testStateDone, testState]), h2.2.2.1 ?_⟩
  constructor
  · norm_num [testEngine, testState]
  · norm_num [testEngine, testState]

/-- C9: the callback event fires exactly when an accepted solution is
strictly better than the stored best; the logged pair is the new current
solution and its cost, and at that moment the pre-step best cost is strictly
below the logged cost (the callback observes the old best) while the
post-step best equals the logged cost (best is updated only after the
callback); in the worsening branch no better-than-best solution can be
accepted when the current cost is at most the best cost; and the callback
log has no effect on any engine-visible field of the step. -/
theorem callback_contract
    (E : SimulatedAnnealingWithNonImproveStoppingCriterion α ρ β)
    (s : SAState α ρ) (nbSol : List α) (rest : β) (r1 : ρ)
    (hnb : E.neighbourhood_function s.current_solution s.rng = ((nbSol, rest), r1))
    (L : List (ℝ × List α)) :
    ((0 ≤ E.cost_function nbSol - s.current_solution_cost ∧
        s.best_solution_cost < E.cost_function nbSol) →
      (innerStep E s).callback_log =
        s.callback_log ++ [(E.cost_function nbSol, nbSol)] ∧
      (innerStep E s).current_solution = nbSol ∧
      (innerStep E s).current_solution_cost = E.cost_function nbSol ∧
      s.best_solution_cost < E.cost_function nbSol ∧
      (innerStep E s).best_solution_cost = E.cost_function nbSol) ∧
    (¬(0 ≤ E.cost_function nbSol - s.current_solution_cost ∧
        s.best_solution_cost < E.cost_function nbSol) →
      (innerStep E s).callback_log = s.callback_log) ∧
    (E.cost_function nbSol - s.current_solution_cost < 0 →
      s.current_solution_cost ≤ s.best_solution_cost →
      ¬ s.best_solution_cost < E.cost_function nbSol) ∧
    (eraseLog (innerStep E { s with callback_log := L }) =
      eraseLog (innerStep E s)) := by
  refine ⟨?_, ?_, ?_, ?_⟩
  · intro h
    simp only [innerStep, hnb]
    rw [if_pos h.1, if_pos h.2]
    exact ⟨rfl, rfl, rfl, h.2, rfl⟩
  · intro h
    simp only [innerStep, hnb]
    by_cases hd : 0 ≤ E.cost_function nbSol - s.current_solution_cost
    · have hb : ¬ E.cost_function nbSol > s.best_solution_cost := fun hb => h ⟨hd, hb⟩
      rw [if_pos hd, if_neg hb]
    · rw [if_neg hd]
      split_ifs <;> rfl
  · intro h1 h2 h3
    have : E.cost_function nbSol < s.current_solution_cost := by linarith
    linarith
  · have hnb2 : E.neighbourhood_function
        (SAState.current_solution { s with callback_log := L })
        (SAState.rng { s with callback_log := L }) = ((nbSol, rest), r1) := hnb
    simp only [innerStep, hnb, hnb2, eraseLog]
    split_ifs <;> rfl

/-- Witness for C9 on the concrete improving step of `testEngine` from
`testState`. -/
theorem callback_contract_witness :
    (innerStep testEngine testState).callback_log =
      testState.callback_log ++ [(testEngine.cost_function [1, 0], [1, 0])] ∧
    (innerStep testEngine testState).current_solution = [1, 0] ∧
    (innerStep testEngine testState).current_solution_cost =
      testEngine.cost_function [1, 0] ∧
    testState.best_solution_cost < testEngine.cost_function [1, 0] ∧
    (innerStep testEngine testState).best_solution_cost =
      testEngine.cost_function [1, 0] := by
  have h := (callback_contract testEngine testState [1, 0] () () rfl []).1
  refine h ⟨?_, ?_⟩
  · norm_num [testEngine, testState]
  · norm_num [testEngine, testState]

/-- Casting a natural index through Python index normalisation is the
identity. -/
theorem pyNorm_natCast (n i : ℕ) : pyNorm n (i : ℤ) = (i : ℤ) := by
  unfold pyNorm
  rw [if_neg (by omega)]

/-- Reading an in-range natural index is a plain list read. -/
theorem pyGet?_natCast (l : List α) (i : ℕ) (h : i < l.length) :
    pyGet? l (i : ℤ) = some (l.get ⟨i, h⟩) := by
  simp [pyGet?, pyNorm_natCast, h]

/-- Writing an in-range natural index is a plain list write. -/
theorem pySet?_natCast (l : List α) (i : ℕ) (a : α) (h : i < l.length) :
    pySet? l (i : ℤ) a = some (l.set i a) := by
  simp [pySet?, pyNorm_natCast, h]

/-- The Python swap of the adjacent in-range positions `i` and `i + 1` is the
double `set` exchanging the two entries. -/
theorem pySwap?_adjacent (l : List α) (i : ℕ) (hi : i + 1 < l.length) :
    pySwap? l (i : ℤ) ((i : ℤ) + 1) =
      some ((l.set i (l.get ⟨i + 1, hi⟩)).set (i + 1)
        (l.get ⟨i, Nat.lt_of_succ_lt hi⟩)) := by
  have hcast : (i : ℤ) + 1 = ((i + 1 : ℕ) : ℤ) := by push_cast; ring
  unfold pySwap?
  rw [hcast, pyGet?_natCast l (i + 1) hi, pyGet?_natCast l i (Nat.lt_of_succ_lt hi)]
  simp only [Option.bind_eq_bind, Option.some_bind]
  rw [pySet?_natCast l i _ (Nat.lt_of_succ_lt hi)]
  simp only [Option.some_bind]
  rw [pySet?_natCast _ (i + 1) _ (by simpa using hi)]

/-- On a ranking with at least two elements and an in-range draw, the
adjacent-swap generator returns the swap of some adjacent in-range pair
`(i, i + 1)` together with that pair. -/
theorem neighbourhood_function_char (r : List α) (draw : ℕ)
    (h2 : 2 ≤ r.length) (hd : draw < r.length) :
    ∃ (i : ℕ) (hi : i + 1 < r.length),
      neighbourhood_function r draw =
        some ((r.set i (r.get ⟨i + 1, hi⟩)).set (i + 1)
          (r.get ⟨i, Nat.lt_of_succ_lt hi⟩), (i : ℤ), (i : ℤ) + 1) := by
  unfold neighbourhood_function
  rw [if_neg (by omega)]
  by_cases hlast : (draw : ℤ) = (r.length : ℤ) - 1
  · refine ⟨r.length - 2, by omega, ?_⟩
    have hc : (draw : ℤ) - 1 = ((r.length - 2 : ℕ) : ℤ) := by omega
    rw [if_pos hlast, hc]
    simp only [pySwap?_adjacent r (r.length - 2)
      (show r.length - 2 + 1 < r.length by omega), Option.map_some']
  · refine ⟨draw, by omega, ?_⟩
    rw [if_neg hlast]
    simp only [pySwap?_adjacent r draw (show draw + 1 < r.length by omega),
      Option.map_some']

/-- One-step unfolding of the adjacency-avoidance loop. -/
theorem adjacencyLoop_unfold (old : ℕ) (av : List ℕ) (ds : List Draw) (np : ℕ) :
    adjacencyLoop old av ds np =
      if areAdjacent old np then
        match ds with
        | Draw.coin u :: rest =>
          if u < 0.5 then
            match rest with
            | Draw.pick i :: rest2 =>
              match av[i]? with
              | some np2 => adjacencyLoop old av rest2 np2
              | none => none
            | _ => none
          else some np
        | _ => none
      else some np := by
  rw [adjacencyLoop.eq_def]

/-- The adjacency-avoidance loop either keeps its input position or returns a
member of `available_positions`. -/
theorem adjacencyLoop_result (old : ℕ) (av : List ℕ) :
    ∀ (n : ℕ) (ds : List Draw), ds.length ≤ n → ∀ (np np' : ℕ),
      adjacencyLoop old av ds np = some np' → np' = np ∨ np' ∈ av := by
  intro n
  induction n with
  | zero =>
    intro ds hlen np np' h
    match ds with
    | [] =>
      by_cases ha : areAdjacent old np
      · rw [adjacencyLoop_unfold, if_pos ha] at h
        simp at h
      · rw [adjacencyLoop_unfold, if_neg (by simp [ha])] at h
        simp at h
        exact Or.inl h.symm
  | succ n ih =>
    intro ds hlen np np' h
    by_cases ha : areAdjacent old np
    · rw [adjacencyLoop_unfold, if_pos ha] at h
      match ds with
      | [] => simp at h
      | Draw.pick i :: rest => simp at h
      | Draw.coin u :: rest =>
        by_cases hu : u < 0.5
        · simp only [if_pos hu] at h
          match rest with
          | [] => simp at h
          | Draw.coin v :: rest2 => simp at h
          | Draw.pick i :: rest2 =>
            simp only [] at h
            cases hi : av[i]? with
            | none => rw [hi] at h; simp at h
            | some np2 =>
              rw [hi] at h
              rcases ih rest2 (by simp at hlen; omega) np2 np' h with h1 | h1
              · exact Or.inr (h1 ▸ List.getElem?_mem hi)
              · exact Or.inr h1
        · simp only [if_neg hu] at h
          simp at h
          exact Or.inl h.symm
    · rw [adjacencyLoop_unfold, if_neg (by simp [ha])] at h
      simp at h
      exact Or.inl h.symm

/-- Membership in the available-positions list. -/
theorem mem_available_positions (n old x : ℕ) :
    x ∈ available_positions n old ↔ x < n ∧ x ≠ old := by
  simp [available_positions, List.mem_filter, List.mem_range]

/-- An adjacent-pair swap on a duplicate-free list changes the list. -/
theorem set_set_adjacent_ne (r : List α) (hnd : r.Nodup) (i : ℕ) (hi : i + 1 < r.length) :
    (r.set i (r.get ⟨i + 1, hi⟩)).set (i + 1) (r.get ⟨i, Nat.lt_of_succ_lt hi⟩) ≠ r := by
  intro he
  have hbi : i < ((r.set i (r.get ⟨i + 1, hi⟩)).set (i + 1)
      (r.get ⟨i, Nat.lt_of_succ_lt hi⟩)).length := by
    simp
    omega
  have h1 : ((r.set i (r.get ⟨i + 1, hi⟩)).set (i + 1)
      (r.get ⟨i, Nat.lt_of_succ_lt hi⟩))[i]? = some (r.get ⟨i + 1, hi⟩) := by
    rw [List.getElem?_eq_getElem hbi, List.getElem_set_ne (by omega : i + 1 ≠ i),
      List.getElem_set_self]
  rw [he, List.getElem?_eq_getElem (Nat.lt_of_succ_lt hi)] at h1
  have h2 : i = i + 1 := (List.Nodup.getElem_inj_iff hnd).mp (by simpa using h1)
  omega

/-- Relocating an element to a different in-range position of a
duplicate-free list changes the list. -/
theorem relocation_ne (r : List α) (hnd : r.Nodup) (old np : ℕ) (hold : old < r.length)
    (hnp : np < r.length) (hne : np ≠ old) :
    (r.eraseIdx old).insertIdx np (r.get ⟨old, hold⟩) ≠ r := by
  intro he
  have hlen : (r.eraseIdx old).length = r.length - 1 := List.length_eraseIdx_of_lt hold
  have hle : np ≤ (r.eraseIdx old).length := by omega
  have hlen2 : ((r.eraseIdx old).insertIdx np (r.get ⟨old, hold⟩)).length =
      (r.eraseIdx old).length + 1 := List.length_insertIdx np _ hle
  have hb : np < ((r.eraseIdx old).insertIdx np (r.get ⟨old, hold⟩)).length := by omega
  have h1 : ((r.eraseIdx old).insertIdx np (r.get ⟨old, hold⟩))[np]? =
      some (r.get ⟨old, hold⟩) := by
    rw [List.getElem?_eq_getElem hb, List.getElem_insertIdx_self _ _ _ hle]
  rw [he, List.getElem?_eq_getElem hnp] at h1
  exact hne ((List.Nodup.getElem_inj_iff hnd).mp (by simpa using h1))

/-- A successful relocation is exactly the pop-insert of the sampled
positions, with the loop's final position within range. -/
theorem neighbourhood_function2_char (r : List α) (old np0 : ℕ) (ds : List Draw)
    (h2 : 2 ≤ r.length) (hold : old < r.length) (hnp0 : np0 < r.length)
    (hne0 : np0 ≠ old) (l' : List α) (o np : ℕ)
    (h : neighbourhood_function2 r old np0 ds = some (l', o, np)) :
    o = old ∧ np < r.length ∧ np ≠ old ∧
    adjacencyLoop old (available_positions r.length old) ds np0 = some np ∧
    l' = (r.eraseIdx old).insertIdx np (r.get ⟨old, hold⟩) := by
  unfold neighbourhood_function2 at h
  rw [if_neg (by omega)] at h
  cases hloop : adjacencyLoop old (available_positions r.length old) ds np0 with
  | none => rw [hloop] at h; simp at h
  | some np1 =>
    rw [hloop, List.getElem?_eq_getElem hold] at h
    simp only [Option.some.injEq, Prod.mk.injEq] at h
    obtain ⟨hl, ho, hnp⟩ := h
    have hrange : np1 < r.length ∧ np1 ≠ old := by
      rcases adjacencyLoop_result old _ ds.length ds (le_refl _) np0 np1 hloop with h1 | h1
      · rw [h1]
        exact ⟨hnp0, hne0⟩
      · exact (mem_available_positions _ _ _).mp h1
    have hlen : (r.eraseIdx old).length = r.length - 1 := List.length_eraseIdx_of_lt hold
    have hnp' : np = np1 := hnp.symm
    subst hnp'
    refine ⟨ho.symm, hrange.1, hrange.2, rfl, ?_⟩
    rw [← hl]
    unfold pyInsert
    rw [min_eq_left (by omega)]
    simp [List.get_eq_getElem]

/-- C6: on a duplicate-free ranking with at least two elements and in-contract
random draws, every ranking produced by the adjacent-swap generator or by the
biased relocation generator is a permutation of the input that differs from
the input. -/
theorem neighbourhood_validity (r : List α) (draw old np0 : ℕ) (ds : List Draw)
    (h2 : 2 ≤ r.length) (hnd : r.Nodup) (hdraw : draw < r.length)
    (hold : old < r.length) (hnp0 : np0 < r.length) (hne0 : np0 ≠ old) :
    (∃ l' a b, neighbourhood_function r draw = some (l', a, b) ∧
      l'.Perm r ∧ l' ≠ r) ∧
    (∀ l' o np, neighbourhood_function2 r old np0 ds = some (l', o, np) →
      l'.Perm r ∧ l' ≠ r) := by
  constructor
  · obtain ⟨i, hi, heq⟩ := neighbourhood_function_char r draw h2 hdraw
    exact ⟨_, _, _, heq, set_set_adjacent_perm r i hi, set_set_adjacent_ne r hnd i hi⟩
  · intro l' o np h
    obtain ⟨ho, hnp, hneq, hloop, hl⟩ :=
      neighbourhood_function2_char r old np0 ds h2 hold hnp0 hne0 l' o np h
    have hlen : (r.eraseIdx old).length = r.length - 1 := List.length_eraseIdx_of_lt hold
    subst hl
    constructor
    · exact (insertIdx_perm_cons _ np _ (by omega)).trans
        (perm_getElem_cons_eraseIdx r old hold).symm
    · exact relocation_ne r hnd old np hold hnp hneq

/-- Witness for C6 on the concrete ranking `[0, 1, 2]` with draw `0` for the
swap generator and sampled pair `(0, 2)` for the relocation generator. -/
theorem neighbourhood_validity_witness :
    (∃ l' a b, neighbourhood_function [(0 : ℤ), 1, 2] 0 = some (l', a, b) ∧
      l'.Perm [(0 : ℤ), 1, 2] ∧ l' ≠ [(0 : ℤ), 1, 2]) ∧
    (∀ l' o np, neighbourhood_function2 [(0 : ℤ), 1, 2] 0 2 [] = some (l', o, np) →
      l'.Perm [(0 : ℤ), 1, 2] ∧ l' ≠ [(0 : ℤ), 1, 2]) :=
  neighbourhood_validity [(0 : ℤ), 1, 2] 0 0 2 [] (by decide) (by decide)
    (by decide) (by decide) (by decide) (by decide)

/-- C7: the adjacency-avoidance loop of the biased relocation generator exits
immediately (consuming no draw) when the two sampled positions are not
adjacent; when they are adjacent it flips a coin each round, exits keeping
the adjacent position on a coin of at least `0.5`, and otherwise re-rolls the
new position among exactly the positions other than `old` and re-tests
adjacency, continuing the while-loop; and on success the generator removes
the element at `old` and reinserts it at the final position by list
insertion, returning the new ranking with the pair `(old, new)`. -/
theorem relocation_loop_structure (r : List α) (old np0 np' : ℕ) (ds : List Draw)
    (h2 : 2 ≤ r.length) (hold : old < r.length) (hnp0 : np0 < r.length)
    (hne0 : np0 ≠ old) :
    (∀ (av : List ℕ) (ds' : List Draw) (np : ℕ), areAdjacent old np = false →
      adjacencyLoop old av ds' np = some np) ∧
    (∀ (av : List ℕ) (u : ℚ) (rest : List Draw) (np : ℕ),
      areAdjacent old np = true → ¬ u < 0.5 →
      adjacencyLoop old av (Draw.coin u :: rest) np = some np) ∧
    (∀ (av : List ℕ) (u : ℚ) (i : ℕ) (rest : List Draw) (np np2 : ℕ),
      areAdjacent old np = true → u < 0.5 → av[i]? = some np2 →
      adjacencyLoop old av (Draw.coin u :: Draw.pick i :: rest) np =
        adjacencyLoop old av rest np2) ∧
    (∀ x : ℕ, x ∈ available_positions r.length old ↔ x < r.length ∧ x ≠ old) ∧
    (adjacencyLoop old (available_positions r.length old) ds np0 = some np' →
      neighbourhood_function2 r old np0 ds =
        some ((r.eraseIdx old).insertIdx np' (r.get ⟨old, hold⟩), old, np')) := by
  refine ⟨?_, ?_, ?_, fun x => mem_available_positions r.length old x, ?_⟩
  · intro av ds' np h
    rw [adjacencyLoop_unfold, if_neg (by simp [h])]
  · intro av u rest np h hu
    rw [adjacencyLoop_unfold, if_pos h]
    simp only [if_neg hu]
  · intro av u i rest np np2 h hu hi
    rw [adjacencyLoop_unfold, if_pos h]
    simp only [if_pos hu, hi]
  · intro hloop
    have hrange : np' < r.length := by
      rcases adjacencyLoop_result old _ ds.length ds (le_refl _) np0 np' hloop with h1 | h1
      · rw [h1]; exact hnp0
      · exact ((mem_available_positions _ _ _).mp h1).1
    have hlen : (r.eraseIdx old).length = r.length - 1 := List.length_eraseIdx_of_lt hold
    unfold neighbourhood_function2
    rw [if_neg (by omega), hloop]
    simp only []
    rw [List.getElem?_eq_getElem hold]
    simp only []
    unfold pyInsert
    rw [min_eq_left (by omega)]
    simp [List.get_eq_getElem]

/-- Witness for C7 on the concrete ranking `[0, 1, 2, 3]` with adjacent
sample `(0, 1)`, one successful coin flip `1/4 < 0.5`, and a re-roll to
position `2`: the element at `0` is reinserted at position `2`. -/
theorem relocation_loop_structure_witness :
    neighbourhood_function2 [(0 : ℤ), 1, 2, 3] 0 1 [Draw.coin (1 / 4), Draw.pick 1] =
      some ([1, 2, 0, 3], 0, 2) := by
  have h := relocation_loop_structure [(0 : ℤ), 1, 2, 3] 0 1 2
    [Draw.coin (1 / 4), Draw.pick 1] (by decide) (by decide) (by decide)
    (by decide)
  have h3 := h.2.2.1 (available_positions 4 0) (1 / 4) 1 [] 1 2
    (by decide) (by norm_num) (by decide)
  have h1 := h.1 (available_positions 4 0) [] 2 (by decide)
  exact h.2.2.2.2 (h3.trans h1)
